import Mathlib

/-!
Verification of the streaming async codec of the `devalue` fork
(`src/src/async.js`, colon-delimited framing, and `src/unnamed/part_000`,
JSON-array framing).

The encoder (`stringifyAsync` / `stringifyAsyncIterable`) flattens a value
tree into a root payload plus a multiplexed stream of producer frames
`(id, status, payload)`.  The decoder (`parseAsync` / `parseAsyncIterable`)
registers one sink per producer id and pumps arriving frames to the sinks.

The synchronous value codec (`stringify.js` / `parse.js`) is not part of the
sources; following the spec (section 1, "Out of scope"), it is modelled as a
black-box flatten/unflatten pair over a small payload tree in which each
future or sequence is replaced by an id placeholder.
-/

namespace DevalueAsync

/- Wire status constants of `src/unnamed/part_000` (JSON-array framing),
lines 28-33. -/
namespace StreamJson

def PROMISE_STATUS_FULFILLED : Nat := 0

def PROMISE_STATUS_REJECTED : Nat := 1

def ASYNC_ITERABLE_STATUS_YIELD : Nat := 0

def ASYNC_ITERABLE_STATUS_ERROR : Nat := 1

def ASYNC_ITERABLE_STATUS_RETURN : Nat := 2

end StreamJson

/- Wire status constants of `src/src/async.js` (colon-delimited framing),
lines 28-33.  Note RETURN and ERROR are numbered differently from the
JSON-array variant. -/
namespace StreamDelim

def PROMISE_STATUS_FULFILLED : Nat := 0

def PROMISE_STATUS_REJECTED : Nat := 1

def ASYNC_ITERABLE_STATUS_YIELD : Nat := 0

def ASYNC_ITERABLE_STATUS_RETURN : Nat := 1

def ASYNC_ITERABLE_STATUS_ERROR : Nat := 2

end StreamDelim

/-- The status-code table of one framing variant, plus `promStrict`:
`part_000`'s Promise reviver rejects only on status `PROMISE_STATUS_REJECTED`
and raises an unknown-status error otherwise (lines 225-232), while
`async.js`'s Promise reviver treats every non-fulfilled status as a rejection
(lines 241-245). -/
structure StatusCodes where
  promFulfilled : Nat
  promRejected : Nat
  seqYield : Nat
  seqReturn : Nat
  seqError : Nat
  promStrict : Bool

/-- Codes of the JSON-array variant (`part_000`). -/
def jsonCodes : StatusCodes :=
  { promFulfilled := StreamJson.PROMISE_STATUS_FULFILLED
    promRejected := StreamJson.PROMISE_STATUS_REJECTED
    seqYield := StreamJson.ASYNC_ITERABLE_STATUS_YIELD
    seqReturn := StreamJson.ASYNC_ITERABLE_STATUS_RETURN
    seqError := StreamJson.ASYNC_ITERABLE_STATUS_ERROR
    promStrict := true }

/-- Codes of the colon-delimited variant (`async.js`). -/
def delimCodes : StatusCodes :=
  { promFulfilled := StreamDelim.PROMISE_STATUS_FULFILLED
    promRejected := StreamDelim.PROMISE_STATUS_REJECTED
    seqYield := StreamDelim.ASYNC_ITERABLE_STATUS_YIELD
    seqReturn := StreamDelim.ASYNC_ITERABLE_STATUS_RETURN
    seqError := StreamDelim.ASYNC_ITERABLE_STATUS_ERROR
    promStrict := false }

/-- The status codes a round trip relies on being mutually distinguishable:
exactly the distinctions the decoder's `switch` statements test. -/
def StatusCodes.ok (sc : StatusCodes) : Prop :=
  sc.promFulfilled ≠ sc.promRejected ∧ sc.seqYield ≠ sc.seqReturn ∧
    sc.seqYield ≠ sc.seqError ∧ sc.seqReturn ≠ sc.seqError

mutual

/-- A value tree: plain data (atoms and pairs), one-shot futures that settle
with a value (`futOk`) or a cause (`futErr`), and lazy sequences with a yield
script and a terminal state.  Modelled from the spec: the plain-data part is
the black-box synchronous codec's domain. -/
inductive Val where
  | atom (n : Nat)
  | pair (a b : Val)
  | futOk (v : Val)
  | futErr (v : Val)
  | sq (b : SeqB)
deriving DecidableEq

/-- The behaviour of one async-iterable source: zero or more yielded items
followed by a normal return value or a thrown cause. -/
inductive SeqB where
  | ret (v : Val)
  | err (v : Val)
  | yld (item : Val) (rest : SeqB)
deriving DecidableEq

end

/-- The flattened textual form a payload stands for.  A future or sequence
inside an encoded value appears only as its producer-id placeholder
(spec section 4.1, "Registration", step 5). -/
inductive Payload where
  | atom (n : Nat)
  | pair (a b : Payload)
  | promiseRef (i : Nat)
  | iterRef (i : Nat)
deriving DecidableEq

/-- Producer ids referenced by a payload's placeholders. -/
def Payload.refs : Payload → List Nat
  | .atom _ => []
  | .pair a b => a.refs ++ b.refs
  | .promiseRef i => [i]
  | .iterRef i => [i]

/-- One pending frame of a producer: the wire status together with the raw
value whose encoding will be the frame's payload (the source stringifies it
only when the frame is produced: `recurse(next)` inside the generators,
`async.js` lines 96-131). -/
abbrev Frame := Nat × Val

/-- One entry of the encoder's `buffer` set: the id `registerAsyncIterable`
assigned (line 55, `++counter`) and the frames its generator has yet to
produce. -/
structure Producer where
  id : Nat
  frames : List Frame
deriving DecidableEq

/-- Encoder state: the id counter and the set of active producers
(spec section 3, "Encoder state"). -/
structure EncSt where
  counter : Nat
  active : List Producer
deriving DecidableEq

/-- The frame script of the AsyncIterable reducer's generator
(`async.js` lines 112-131): one YIELD frame per item, then a RETURN frame
with the final value, or an ERROR frame with the thrown cause. -/
def seqFrames (sc : StatusCodes) : SeqB → List Frame
  | .ret v => [(sc.seqReturn, v)]
  | .err v => [(sc.seqError, v)]
  | .yld item rest => (sc.seqYield, item) :: seqFrames sc rest

/-- Modelled from the spec: the synchronous `stringify` of `stringify.js`
(not in src) walks the plain structure and, at each future or sequence,
invokes the Promise/AsyncIterable reducer, which registers a producer under
the next counter value and embeds the id placeholder (`async.js` lines
54-70 and 92-131).  Returns the payload, the new counter, and the newly
registered producers in registration order. -/
def flattenVal (sc : StatusCodes) : Val → Nat → Payload × Nat × List Producer
  | .atom n, c => (.atom n, c, [])
  | .pair a b, c =>
    let ra := flattenVal sc a c
    let rb := flattenVal sc b ra.2.1
    (.pair ra.1 rb.1, rb.2.1, ra.2.2 ++ rb.2.2)
  | .futOk v, c => (.promiseRef (c+1), c+1, [⟨c+1, [(sc.promFulfilled, v)]⟩])
  | .futErr v, c => (.promiseRef (c+1), c+1, [⟨c+1, [(sc.promRejected, v)]⟩])
  | .sq b, c => (.iterRef (c+1), c+1, [⟨c+1, seqFrames sc b⟩])

/-- One emitted chunk at frame level: `(id, status, payload)`. -/
abbrev Chunk := Nat × Nat × Payload

/-- Select the producer a race step settles on.  The `Promise.race` over
`buffer` in the source (lines 136-151 of `part_000`) is nondeterministic;
the model quantifies over the chosen position. -/
def pick : List Producer → Nat → Option (List Producer × Producer × List Producer)
  | [], _ => none
  | p :: rest, 0 => some ([], p, rest)
  | p :: rest, k+1 => (pick rest k).map (fun r => (p :: r.1, r.2.1, r.2.2))

/-- One iteration of the encoder's multiplexing loop (`part_000` lines
136-155): take the chosen producer's next frame, stringify its raw value
(registering any nested producers), emit the chunk, and drop the producer
once its last frame is out. -/
def encStep (sc : StatusCodes) (st : EncSt) (k : Nat) : Option (Chunk × EncSt) :=
  match pick st.active k with
  | none => none
  | some (l₁, p, l₂) =>
    match p.frames with
    | [] => none
    | (status, rv) :: rest =>
      let fl := flattenVal sc rv st.counter
      some ((p.id, status, fl.1),
        ⟨fl.2.1, l₁ ++ (if rest.isEmpty then [] else [⟨p.id, rest⟩]) ++ l₂ ++ fl.2.2⟩)

/-- Run the multiplexing loop under a schedule of race outcomes. -/
def encodeRun (sc : StatusCodes) : EncSt → List Nat → Option (List Chunk × EncSt)
  | st, [] => some ([], st)
  | st, k :: s =>
    match encStep sc st k with
    | none => none
    | some (ch, st₁) =>
      match encodeRun sc st₁ s with
      | none => none
      | some (chs, stF) => some (ch :: chs, stF)

/-- The whole encoder (`stringifyAsync` / `stringifyAsyncIterable`): emit the
root payload, then run the loop until `buffer` is empty.  A schedule that
ends with producers still active is not a complete encode and yields
`none`. -/
def stringifyAsyncModel (sc : StatusCodes) (v : Val) (s : List Nat) :
    Option (Payload × List Chunk) :=
  let r0 := flattenVal sc v 0
  match encodeRun sc ⟨r0.2.1, r0.2.2⟩ s with
  | none => none
  | some (chs, stF) => if stF.active.isEmpty then some (r0.1, chs) else none

/-- The frames carried by the chunk stream for one producer id, in stream
order; this is what the decoder's pump enqueues into the sink for that id. -/
def framesFor (i : Nat) (chs : List Chunk) : List (Nat × Payload) :=
  chs.filterMap (fun c => if c.1 = i then some c.2 else none)

/-- The decoded sequence the AsyncIterable reviver produces from the frames
its sink delivers (`part_000` lines 237-269): YIELD frames become items,
a RETURN frame ends the sequence with its value, an ERROR frame throws its
value, any other status is an unknown-status error, and an exhausted sink
leaves the consumer pending (`none`).  `u` decodes one frame payload. -/
def rebuildWith (sc : StatusCodes) (u : Payload → Option Val) :
    List (Nat × Payload) → Option SeqB
  | [] => none
  | (st, p) :: rest =>
    if st = sc.seqYield then
      match u p, rebuildWith sc u rest with
      | some item, some r => some (.yld item r)
      | _, _ => none
    else if st = sc.seqReturn then (u p).map .ret
    else if st = sc.seqError then (u p).map .err
    else none

/-- The settled state of a decoded future, from the frames its sink
delivers: the Promise reviver awaits one frame, resolves on FULFILLED and
rejects on REJECTED (`part_000` lines 213-236, which raises an
unknown-status error on any other status; `async.js` lines 229-250 treats
every non-fulfilled status as a rejection, selected here by `promStrict`).
An exhausted sink leaves the future pending (`none`). -/
def promiseRead (sc : StatusCodes) (u : Payload → Option Val) :
    List (Nat × Payload) → Option Val
  | [] => none
  | (st, p) :: _ =>
    if st = sc.promFulfilled then (u p).map .futOk
    else if st = sc.promRejected ∨ sc.promStrict = false then (u p).map .futErr
    else none

/-- Modelled from the spec plus the built-in revivers: the synchronous
`unflatten` / `parse` (not in src) rebuilds the plain structure and, at each
placeholder, invokes the Promise reviver (`promiseRead`) or the
AsyncIterable reviver (`rebuildWith`) on the frames the pump delivers to
that id's sink.  `fuel` bounds the placeholder-following depth so the model
is total. -/
def unflat (sc : StatusCodes) (fr : Nat → List (Nat × Payload)) :
    Nat → Payload → Option Val
  | 0, _ => none
  | _+1, .atom n => some (.atom n)
  | fuel+1, .pair a b =>
    match unflat sc fr fuel a, unflat sc fr fuel b with
    | some va, some vb => some (.pair va vb)
    | _, _ => none
  | fuel+1, .promiseRef i =>
    promiseRead sc (fun q => unflat sc fr fuel q) (fr i)
  | fuel+1, .iterRef i =>
    (rebuildWith sc (fun q => unflat sc fr fuel q) (fr i)).map .sq
termination_by structural fuel => fuel

/-- A message a sink can receive: a producer frame, or the stream-interrupted
error the pump broadcasts. -/
inductive Msg where
  | frame (status : Nat) (pl : Payload)
  | interrupted
deriving DecidableEq

/-- Decoder pump state: the ids with a registered sink (the `enqueueMap`
keys) and the log of every enqueue performed, in order. -/
structure DecSt where
  sinks : List Nat
  delivered : List (Nat × Msg)
deriving DecidableEq

/-- One iteration of the decoder's pump on a well-formed chunk
(`part_000` lines 279-289): decode the payload — which registers a sink for
every placeholder it contains — then enqueue the frame to the sink of the
chunk's id, silently dropping it when no such sink exists
(`enqueueMap.get(idx)?.`). -/
def pumpStep (st : DecSt) (ch : Chunk) : DecSt :=
  let sinks₁ := st.sinks ++ ch.2.2.refs
  { sinks := sinks₁
    delivered := st.delivered ++
      (if ch.1 ∈ sinks₁ then [(ch.1, Msg.frame ch.2.1 ch.2.2)] else []) }

/-- End-of-stream handling of `parseAsync` (`part_000` lines 290-294): when
the chunk stream ends, enqueue a stream-interrupted error to every sink
still registered. -/
def pumpFinishJson (st : DecSt) : DecSt :=
  { st with delivered := st.delivered ++ st.sinks.map (fun i => (i, Msg.interrupted)) }

/-- End-of-stream handling of `parseAsyncIterable` (`async.js` lines
293-295): on normal termination the pump just breaks out of its loop;
no sink is notified. -/
def pumpFinishDelim (st : DecSt) : DecSt := st

/-- The full pump of the JSON-array decoder over a frame-level chunk list,
starting from the sinks the root payload registered. -/
def parseAsyncPump (rootPl : Payload) (chs : List Chunk) : DecSt :=
  pumpFinishJson (chs.foldl pumpStep ⟨rootPl.refs, []⟩)

/-- The full pump of the delimited decoder over a frame-level chunk list. -/
def parseAsyncIterablePump (rootPl : Payload) (chs : List Chunk) : DecSt :=
  pumpFinishDelim (chs.foldl pumpStep ⟨rootPl.refs, []⟩)

/-- The messages a given sink received, in delivery order. -/
def msgsTo (i : Nat) (st : DecSt) : List Msg :=
  st.delivered.filterMap (fun d => if d.1 = i then some d.2 else none)

/-- The frames a given sink received (a consumer that stops at its terminal
frame never observes anything after it). -/
def sinkFrames (i : Nat) (st : DecSt) : List (Nat × Payload) :=
  st.delivered.filterMap (fun d =>
    match d with
    | (j, Msg.frame s p) => if j = i then some (s, p) else none
    | (_, Msg.interrupted) => none)

/-- What the consumer of one sink observes on its next read: a frame, the
stream-interrupted error, or it stays pending. -/
inductive SinkRead where
  | got (status : Nat) (pl : Payload)
  | interrupted
  | pending
deriving DecidableEq

/-- The first message a sink's consumer reads. -/
def firstRead : List Msg → SinkRead
  | [] => .pending
  | Msg.frame s p :: _ => .got s p
  | Msg.interrupted :: _ => .interrupted

/-! Properties of the flattening pass. -/

/-- A sequence producer always has at least its terminal frame. -/
theorem seqFrames_ne_nil (sc : StatusCodes) (b : SeqB) : seqFrames sc b ≠ [] := by
  cases b <;> simp [seqFrames]

/-- Registration bookkeeping of one `stringify` call: the counter only grows,
it grows by one per registered producer, ids are handed out consecutively in
registration order, the payload's placeholders are exactly the registered
ids, and every producer starts with a pending frame. -/
theorem flattenVal_spec (sc : StatusCodes) (v : Val) (c : Nat) :
    (flattenVal sc v c).2.1 = c + (flattenVal sc v c).2.2.length ∧
    (flattenVal sc v c).2.2.map Producer.id =
      List.range' (c+1) (flattenVal sc v c).2.2.length ∧
    (flattenVal sc v c).1.refs = (flattenVal sc v c).2.2.map Producer.id ∧
    ∀ p ∈ (flattenVal sc v c).2.2, p.frames ≠ [] := by
  match v with
  | .atom n => simp [flattenVal, Payload.refs]
  | .pair a b =>
    have ha := flattenVal_spec sc a c
    have hb := flattenVal_spec sc b (flattenVal sc a c).2.1
    simp only [flattenVal, Payload.refs, List.map_append, List.length_append]
    refine ⟨by omega, ?_, ?_, ?_⟩
    · rw [ha.2.1, hb.2.1]
      have h1 := ha.1
      rw [show (flattenVal sc a c).2.1 + 1
            = c + 1 + 1 * (flattenVal sc a c).2.2.length by omega]
      rw [List.range'_append]
      congr 1
      omega
    · rw [ha.2.2.1, hb.2.2.1]
    · intro p hp
      rcases List.mem_append.mp hp with h | h
      · exact ha.2.2.2 p h
      · exact hb.2.2.2 p h
  | .futOk w => simp [flattenVal, Payload.refs, List.range']
  | .futErr w => simp [flattenVal, Payload.refs, List.range']
  | .sq b => simp [flattenVal, Payload.refs, List.range', seqFrames_ne_nil]

/-! Fuel monotonicity of the decoding semantics. -/

/-- `rebuildWith` is monotone in the per-frame decoder. -/
theorem rebuildWith_mono (sc : StatusCodes) {u u' : Payload → Option Val}
    (h : ∀ p w, u p = some w → u' p = some w) :
    ∀ l r, rebuildWith sc u l = some r → rebuildWith sc u' l = some r := by
  intro l
  induction l with
  | nil => intro r hr; simp [rebuildWith] at hr
  | cons d rest ih =>
    intro r hr
    obtain ⟨st, p⟩ := d
    by_cases hy : st = sc.seqYield
    · simp only [rebuildWith, if_pos hy] at hr ⊢
      cases hup : u p with
      | none => rw [hup] at hr; exact absurd hr (by simp)
      | some item =>
        cases hrb : rebuildWith sc u rest with
        | none => rw [hup, hrb] at hr; exact absurd hr (by simp)
        | some rr =>
          rw [hup, hrb] at hr
          rw [h p item hup, ih rr hrb]
          exact hr
    · by_cases hret : st = sc.seqReturn
      · simp only [rebuildWith, if_neg hy, if_pos hret] at hr ⊢
        cases hup : u p with
        | none => rw [hup] at hr; exact absurd hr (by simp)
        | some w =>
          rw [hup] at hr
          rw [h p w hup]
          exact hr
      · by_cases herr : st = sc.seqError
        · simp only [rebuildWith, if_neg hy, if_neg hret, if_pos herr] at hr ⊢
          cases hup : u p with
          | none => rw [hup] at hr; exact absurd hr (by simp)
          | some w =>
            rw [hup] at hr
            rw [h p w hup]
            exact hr
        · simp only [rebuildWith, if_neg hy, if_neg hret, if_neg herr] at hr
          exact absurd hr (by simp)

/-- `promiseRead` is monotone in the per-frame decoder. -/
theorem promiseRead_mono (sc : StatusCodes) {u u' : Payload → Option Val}
    (h : ∀ p w, u p = some w → u' p = some w) :
    ∀ l w, promiseRead sc u l = some w → promiseRead sc u' l = some w := by
  intro l w hr
  match l with
  | [] => simp [promiseRead] at hr
  | (st, p) :: rest =>
    by_cases h1 : st = sc.promFulfilled
    · simp only [promiseRead, if_pos h1] at hr ⊢
      cases hup : u p with
      | none => rw [hup] at hr; exact absurd hr (by simp)
      | some wp => rw [hup] at hr; rw [h p wp hup]; exact hr
    · by_cases h2 : st = sc.promRejected ∨ sc.promStrict = false
      · simp only [promiseRead, if_neg h1, if_pos h2] at hr ⊢
        cases hup : u p with
        | none => rw [hup] at hr; exact absurd hr (by simp)
        | some wp => rw [hup] at hr; rw [h p wp hup]; exact hr
      · simp only [promiseRead, if_neg h1, if_neg h2] at hr
        exact absurd hr (by simp)

/-- Decoding still succeeds with one more unit of fuel. -/
theorem unflat_mono_succ (sc : StatusCodes) (fr : Nat → List (Nat × Payload)) :
    ∀ fuel p w, unflat sc fr fuel p = some w → unflat sc fr (fuel+1) p = some w := by
  intro fuel
  induction fuel with
  | zero => intro p w h; simp [unflat] at h
  | succ fuel ih =>
    intro p w h
    cases p with
    | atom n => simpa [unflat] using h
    | pair a b =>
      simp only [unflat] at h ⊢
      cases ha : unflat sc fr fuel a with
      | none => rw [ha] at h; exact absurd h (by simp)
      | some va =>
        cases hb : unflat sc fr fuel b with
        | none => rw [ha, hb] at h; exact absurd h (by simp)
        | some vb =>
          rw [ha, hb] at h
          rw [ih a va ha, ih b vb hb]
          exact h
    | promiseRef i =>
      simp only [unflat] at h ⊢
      exact promiseRead_mono sc (fun q wq hq => ih q wq hq) (fr i) w h
    | iterRef i =>
      simp only [unflat] at h ⊢
      cases hrb : rebuildWith sc (fun q => unflat sc fr fuel q) (fr i) with
      | none => rw [hrb] at h; exact absurd h (by simp)
      | some r =>
        rw [hrb] at h
        rw [rebuildWith_mono sc (fun q wq hq => ih q wq hq) (fr i) r hrb]
        exact h

/-- Decoding succeeds with any larger amount of fuel. -/
theorem unflat_mono_le (sc : StatusCodes) (fr : Nat → List (Nat × Payload))
    {fuel fuel' : Nat} (h : fuel ≤ fuel') :
    ∀ p w, unflat sc fr fuel p = some w → unflat sc fr fuel' p = some w := by
  induction h with
  | refl => exact fun p w hw => hw
  | step _ ih => exact fun p w hw => unflat_mono_succ sc fr _ p w (ih p w hw)

/-! Frame-map congruence: decoding a payload consults only the sinks of ids
above the counter value at which the payload was produced, so frames for
older ids are irrelevant to it. -/

/-- Every placeholder of the payload refers to an id above `n`. -/
def refsAbove (n : Nat) (p : Payload) : Prop := ∀ r ∈ p.refs, n < r

/-- `rebuildWith` only looks at the payloads of its frames. -/
theorem rebuildWith_congr (sc : StatusCodes) {u u' : Payload → Option Val} :
    ∀ l, (∀ d ∈ l, u d.2 = u' d.2) → rebuildWith sc u l = rebuildWith sc u' l := by
  intro l
  induction l with
  | nil => intro _; rfl
  | cons d rest ih =>
    intro h
    obtain ⟨st, p⟩ := d
    have hp : u p = u' p := h (st, p) (List.mem_cons_self _ _)
    have hrest := ih (fun d hd => h d (List.mem_cons_of_mem _ hd))
    simp only [rebuildWith, hp, hrest]

/-- `promiseRead` only looks at the payloads of its frames. -/
theorem promiseRead_congr (sc : StatusCodes) {u u' : Payload → Option Val} :
    ∀ l, (∀ d ∈ l, u d.2 = u' d.2) → promiseRead sc u l = promiseRead sc u' l := by
  intro l h
  match l with
  | [] => rfl
  | (st, p) :: rest =>
    have hp : u p = u' p := h (st, p) (List.mem_cons_self _ _)
    simp only [promiseRead, hp]

/-- Two frame maps that agree on every id above `n` decode payloads whose
placeholders (hereditarily) stay above `n` identically. -/
theorem unflat_congr (sc : StatusCodes) {fr fr' : Nat → List (Nat × Payload)}
    {n : Nat} (hfr : ∀ j, n < j → fr' j = fr j)
    (hcl : ∀ j, n < j → ∀ d ∈ fr j, refsAbove n d.2) :
    ∀ fuel p, refsAbove n p → unflat sc fr' fuel p = unflat sc fr fuel p := by
  intro fuel
  induction fuel with
  | zero => intro p _; simp [unflat]
  | succ fuel ih =>
    intro p hp
    cases p with
    | atom m => rfl
    | pair a b =>
      have ha : refsAbove n a := fun r hr => hp r (by simp [Payload.refs, hr])
      have hb : refsAbove n b := fun r hr => hp r (by simp [Payload.refs, hr])
      simp only [unflat, ih a ha, ih b hb]
    | promiseRef i =>
      have hi : n < i := hp i (by simp [Payload.refs])
      simp only [unflat, hfr i hi]
      exact promiseRead_congr sc (fr i)
        (fun d hd => ih d.2 (hcl i hi d hd))
    | iterRef i =>
      have hi : n < i := hp i (by simp [Payload.refs])
      simp only [unflat, hfr i hi]
      rw [rebuildWith_congr sc (fr i) (fun d hd => ih d.2 (hcl i hi d hd))]

/-! Soundness of flattening: a payload decodes back to the value it was
flattened from, provided every producer it registered has its frames
delivered faithfully to its sink. -/

/-- The sink received the frame's status, and its payload decodes to the raw
value the producer stringified. -/
def GoodFrame (sc : StatusCodes) (fr : Nat → List (Nat × Payload))
    (f : Frame) (d : Nat × Payload) : Prop :=
  d.1 = f.1 ∧ ∃ fuel, unflat sc fr fuel d.2 = some f.2

/-- The producer's sink received exactly the producer's frame script, in
order. -/
def GoodP (sc : StatusCodes) (fr : Nat → List (Nat × Payload))
    (p : Producer) : Prop :=
  List.Forall₂ (GoodFrame sc fr) p.frames (fr p.id)

/-- A faithfully delivered sequence frame script rebuilds the source
sequence behaviour. -/
theorem seq_sound (sc : StatusCodes) (hok : sc.ok)
    (fr : Nat → List (Nat × Payload)) :
    ∀ (b : SeqB) (dl : List (Nat × Payload)),
      List.Forall₂ (GoodFrame sc fr) (seqFrames sc b) dl →
      ∃ fuel, rebuildWith sc (fun q => unflat sc fr fuel q) dl = some b := by
  intro b
  match b with
  | .ret v =>
    intro dl hf
    rw [seqFrames] at hf
    cases hf with
    | cons hd htl =>
      rename_i d dl'
      cases htl
      obtain ⟨st, p⟩ := d
      obtain ⟨hst, f, hu⟩ := hd
      simp only at hst
      subst hst
      exact ⟨f, by simp [rebuildWith, hu, Ne.symm hok.2.1]⟩
  | .err v =>
    intro dl hf
    rw [seqFrames] at hf
    cases hf with
    | cons hd htl =>
      rename_i d dl'
      cases htl
      obtain ⟨st, p⟩ := d
      obtain ⟨hst, f, hu⟩ := hd
      simp only at hst
      subst hst
      exact ⟨f, by
        simp [rebuildWith, hu, Ne.symm hok.2.2.1, Ne.symm hok.2.2.2]⟩
  | .yld item rest =>
    intro dl hf
    rw [seqFrames] at hf
    cases hf with
    | cons hd htl =>
      rename_i d dl'
      obtain ⟨st, p⟩ := d
      obtain ⟨hst, f2, hu⟩ := hd
      simp only at hst
      subst hst
      obtain ⟨f1, hrest⟩ := seq_sound sc hok fr rest dl' htl
      refine ⟨max f1 f2, ?_⟩
      have hu' : unflat sc fr (max f1 f2) p = some item :=
        unflat_mono_le sc fr (le_max_right f1 f2) p item hu
      have hrest' :
          rebuildWith sc (fun q => unflat sc fr (max f1 f2) q) dl' = some rest :=
        rebuildWith_mono sc
          (fun q w hq => unflat_mono_le sc fr (le_max_left f1 f2) q w hq)
          dl' rest hrest
      simp [rebuildWith, hu', hrest']

/-- Soundness of one `stringify` call: if every producer it registered has a
faithful sink, the payload decodes to the original value. -/
theorem flatten_sound (sc : StatusCodes) (hok : sc.ok)
    (fr : Nat → List (Nat × Payload)) :
    ∀ (v : Val) (c : Nat),
      (∀ p ∈ (flattenVal sc v c).2.2, GoodP sc fr p) →
      ∃ fuel, unflat sc fr fuel (flattenVal sc v c).1 = some v := by
  intro v
  match v with
  | .atom n => exact fun c _ => ⟨1, rfl⟩
  | .pair a b =>
    intro c hps
    simp only [flattenVal] at hps ⊢
    obtain ⟨f1, ha⟩ := flatten_sound sc hok fr a c
      (fun p hp => hps p (List.mem_append.mpr (Or.inl hp)))
    obtain ⟨f2, hb⟩ := flatten_sound sc hok fr b (flattenVal sc a c).2.1
      (fun p hp => hps p (List.mem_append.mpr (Or.inr hp)))
    refine ⟨max f1 f2 + 1, ?_⟩
    have ha' := unflat_mono_le sc fr (le_max_left f1 f2) _ _ ha
    have hb' := unflat_mono_le sc fr (le_max_right f1 f2) _ _ hb
    simp only [unflat, ha', hb']
  | .futOk w =>
    intro c hps
    have hg0 : GoodP sc fr ⟨c+1, [(sc.promFulfilled, w)]⟩ :=
      hps ⟨c+1, [(sc.promFulfilled, w)]⟩ (by simp [flattenVal])
    have hg : List.Forall₂ (GoodFrame sc fr) [(sc.promFulfilled, w)] (fr (c+1)) :=
      hg0
    generalize hfr : fr (c+1) = dl at hg
    cases hg with
    | cons hd htl =>
      rename_i d dl'
      cases htl
      obtain ⟨st, p⟩ := d
      obtain ⟨hst, f, hu⟩ := hd
      simp only at hst
      subst hst
      refine ⟨f + 1, ?_⟩
      simp only [flattenVal, unflat]
      rw [hfr]
      simp [promiseRead, hu]
  | .futErr w =>
    intro c hps
    have hg0 : GoodP sc fr ⟨c+1, [(sc.promRejected, w)]⟩ :=
      hps ⟨c+1, [(sc.promRejected, w)]⟩ (by simp [flattenVal])
    have hg : List.Forall₂ (GoodFrame sc fr) [(sc.promRejected, w)] (fr (c+1)) :=
      hg0
    generalize hfr : fr (c+1) = dl at hg
    cases hg with
    | cons hd htl =>
      rename_i d dl'
      cases htl
      obtain ⟨st, p⟩ := d
      obtain ⟨hst, f, hu⟩ := hd
      simp only at hst
      subst hst
      refine ⟨f + 1, ?_⟩
      simp only [flattenVal, unflat]
      rw [hfr]
      simp [promiseRead, hu, Ne.symm hok.1]
  | .sq b =>
    intro c hps
    have hg0 : GoodP sc fr ⟨c+1, seqFrames sc b⟩ :=
      hps ⟨c+1, seqFrames sc b⟩ (by simp [flattenVal])
    have hg : List.Forall₂ (GoodFrame sc fr) (seqFrames sc b) (fr (c+1)) :=
      hg0
    obtain ⟨f, hrb⟩ := seq_sound sc hok fr b _ hg
    refine ⟨f + 1, ?_⟩
    simp only [flattenVal, unflat, hrb, Option.map_some']

/-! Bookkeeping invariants of the encoder's multiplexing loop. -/

/-- The ids of the currently active producers. -/
def activeIds (st : EncSt) : List Nat := st.active.map Producer.id

/-- Invariants E1/E2 of the spec: active ids are pairwise distinct, strictly
positive, never exceed the counter, and every active producer still has a
pending frame. -/
def WF (st : EncSt) : Prop :=
  (activeIds st).Nodup ∧
    ∀ p ∈ st.active, 0 < p.id ∧ p.id ≤ st.counter ∧ p.frames ≠ []

/-- `pick` returns a splitting of the active list. -/
theorem pick_eq : ∀ (l : List Producer) (k : Nat) {l₁ p l₂},
    pick l k = some (l₁, p, l₂) → l = l₁ ++ p :: l₂ := by
  intro l
  induction l with
  | nil => intro k l₁ p l₂ h; simp [pick] at h
  | cons q rest ih =>
    intro k l₁ p l₂ h
    cases k with
    | zero =>
      simp only [pick] at h
      cases h
      rfl
    | succ k =>
      simp only [pick] at h
      cases hp : pick rest k with
      | none => rw [hp] at h; exact absurd h (by simp)
      | some r =>
        rw [hp] at h
        obtain ⟨a, b, c⟩ := r
        simp only [Option.map_some'] at h
        cases h
        rw [ih k hp]
        rfl

/-- Dissection of one successful multiplexer step. -/
theorem encStep_eq {sc : StatusCodes} {st : EncSt} {k : Nat} {ch : Chunk}
    {st' : EncSt} (h : encStep sc st k = some (ch, st')) :
    ∃ l₁ p l₂ status rv rest,
      st.active = l₁ ++ p :: l₂ ∧ p.frames = (status, rv) :: rest ∧
      ch = (p.id, status, (flattenVal sc rv st.counter).1) ∧
      st' = ⟨(flattenVal sc rv st.counter).2.1,
        l₁ ++ (if rest.isEmpty then [] else [⟨p.id, rest⟩]) ++ l₂ ++
          (flattenVal sc rv st.counter).2.2⟩ := by
  unfold encStep at h
  split at h
  · exact absurd h (by simp)
  · rename_i l₁ p l₂ hpick
    split at h
    · exact absurd h (by simp)
    · rename_i status rv rest hframes
      simp only [Option.some.injEq, Prod.mk.injEq] at h
      exact ⟨l₁, p, l₂, status, rv, rest, pick_eq _ _ hpick, hframes,
        h.1.symm, h.2.symm⟩

/-- A lower reference bound weakens. -/
theorem refsAbove_mono {m n : Nat} (h : n ≤ m) {p : Payload}
    (hp : refsAbove m p) : refsAbove n p :=
  fun r hr => lt_of_le_of_lt h (hp r hr)

/-- Counter monotonicity of one `stringify` call. -/
theorem flattenVal_counter_le (sc : StatusCodes) (v : Val) (c : Nat) :
    c ≤ (flattenVal sc v c).2.1 := by
  have h := (flattenVal_spec sc v c).1
  omega

/-- Freshness of the ids one `stringify` call allocates. -/
theorem flattenVal_id_bounds (sc : StatusCodes) (v : Val) (c : Nat) :
    ∀ p ∈ (flattenVal sc v c).2.2, c < p.id ∧ p.id ≤ (flattenVal sc v c).2.1 := by
  intro p hp
  have hr := (flattenVal_spec sc v c).2.1
  have hc := (flattenVal_spec sc v c).1
  have : p.id ∈ List.map Producer.id (flattenVal sc v c).2.2 :=
    List.mem_map_of_mem Producer.id hp
  rw [hr] at this
  rw [List.mem_range'_1] at this
  omega

/-- The placeholders of one `stringify` call's payload are exactly the fresh
ids. -/
theorem flattenVal_refs_bounds (sc : StatusCodes) (v : Val) (c : Nat) :
    refsAbove c (flattenVal sc v c).1 := by
  intro r hr
  have := (flattenVal_spec sc v c).2.2.1
  rw [this] at hr
  rw [List.mem_map] at hr
  obtain ⟨p, hp, hid⟩ := hr
  have := flattenVal_id_bounds sc v c p hp
  omega

/-- The frames the chunk stream carries for an id, cons case (same id). -/
theorem framesFor_cons_self {i : Nat} {ch : Chunk} (h : ch.1 = i)
    (chs : List Chunk) : framesFor i (ch :: chs) = ch.2 :: framesFor i chs := by
  simp [framesFor, List.filterMap_cons, h]

/-- The frames the chunk stream carries for an id, cons case (other id). -/
theorem framesFor_cons_ne {i : Nat} {ch : Chunk} (h : ch.1 ≠ i)
    (chs : List Chunk) : framesFor i (ch :: chs) = framesFor i chs := by
  simp [framesFor, List.filterMap_cons, h]

/-- A stream none of whose chunks carry the id delivers nothing to it. -/
theorem framesFor_eq_nil {i : Nat} {chs : List Chunk}
    (h : ∀ c ∈ chs, c.1 ≠ i) : framesFor i chs = [] := by
  induction chs with
  | nil => rfl
  | cons c rest ih =>
    rw [framesFor_cons_ne (h c (by simp))]
    exact ih (fun d hd => h d (by simp [hd]))

/-- Every frame delivered for an id comes from a chunk with that id. -/
theorem framesFor_mem {i : Nat} {chs : List Chunk} {d : Nat × Payload}
    (h : d ∈ framesFor i chs) : (i, d) ∈ chs := by
  rw [framesFor, List.mem_filterMap] at h
  obtain ⟨c, hc, hfc⟩ := h
  by_cases hci : c.1 = i
  · rw [if_pos hci] at hfc
    obtain ⟨c1, c2⟩ := c
    cases hfc
    cases hci
    exact hc
  · rw [if_neg hci] at hfc
    cases hfc

/-- Elements of the active-id list stay at or below the counter. -/
theorem activeIds_le {st : EncSt} (hwf : WF st) :
    ∀ j ∈ activeIds st, 0 < j ∧ j ≤ st.counter := by
  intro j hj
  rw [activeIds, List.mem_map] at hj
  obtain ⟨q, hq, hqe⟩ := hj
  have := (hwf.2 q hq).1
  have := (hwf.2 q hq).2.1
  omega

/-- One multiplexer step preserves the invariant, grows the counter, emits a
chunk whose id is active and whose payload references only fresh ids, and
puts only previously active or freshly allocated ids into the new active
set. -/
theorem encStep_wf {sc : StatusCodes} {st : EncSt} {k : Nat} {ch : Chunk}
    {st' : EncSt} (h : encStep sc st k = some (ch, st')) (hwf : WF st) :
    WF st' ∧ st.counter ≤ st'.counter ∧ ch.1 ∈ activeIds st ∧
      refsAbove st.counter ch.2.2 ∧
      (∀ i ∈ activeIds st', i ∈ activeIds st ∨ st.counter < i) := by
  obtain ⟨l₁, p, l₂, status, rv, rest, hact, hfrm, hch, hst⟩ := encStep_eq h
  have hpmem : p ∈ st.active := by rw [hact]; simp
  have hpb := hwf.2 p hpmem
  have hidb := flattenVal_id_bounds sc rv st.counter
  have hcle := flattenVal_counter_le sc rv st.counter
  have hfne := (flattenVal_spec sc rv st.counter).2.2.2
  have hndfresh : (List.map Producer.id (flattenVal sc rv st.counter).2.2).Nodup := by
    rw [(flattenVal_spec sc rv st.counter).2.1]
    exact List.nodup_range' _ _
  have hnd : (List.map Producer.id l₁ ++ Producer.id p :: List.map Producer.id l₂).Nodup := by
    have := hwf.1
    rw [activeIds, hact] at this
    simpa using this
  have holdle : ∀ j ∈ activeIds st, j ≤ st.counter :=
    fun j hj => (activeIds_le hwf j hj).2
  have hmem' : ∀ q ∈ st'.active,
      q ∈ l₁ ∨ q ∈ l₂ ∨ (rest.isEmpty = false ∧ q = ⟨p.id, rest⟩) ∨
        q ∈ (flattenVal sc rv st.counter).2.2 := by
    intro q hq
    rw [hst] at hq
    simp only [List.mem_append] at hq
    rcases hq with ((hq | hq) | hq) | hq
    · exact Or.inl hq
    · by_cases hre : rest.isEmpty
      · rw [if_pos hre] at hq; cases hq
      · rw [if_neg hre] at hq
        simp only [List.mem_singleton] at hq
        exact Or.inr (Or.inr (Or.inl ⟨Bool.eq_false_iff.mpr hre, hq⟩))
    · exact Or.inr (Or.inl hq)
    · exact Or.inr (Or.inr (Or.inr hq))
  have hothers : ∀ q, q ∈ l₁ ∨ q ∈ l₂ → q ∈ st.active := by
    intro q hq
    rw [hact]
    rcases hq with hq | hq
    · exact List.mem_append.mpr (Or.inl hq)
    · exact List.mem_append.mpr (Or.inr (List.mem_cons_of_mem _ hq))
  have hmemA : ∀ j ∈ List.map Producer.id l₁, j ∈ activeIds st := by
    intro j hj
    rw [List.mem_map] at hj
    obtain ⟨q, hq, hqe⟩ := hj
    rw [← hqe, activeIds]
    exact List.mem_map_of_mem _ (hothers q (Or.inl hq))
  have hmemC : ∀ j ∈ List.map Producer.id l₂, j ∈ activeIds st := by
    intro j hj
    rw [List.mem_map] at hj
    obtain ⟨q, hq, hqe⟩ := hj
    rw [← hqe, activeIds]
    exact List.mem_map_of_mem _ (hothers q (Or.inr hq))
  refine ⟨⟨?_, ?_⟩, ?_, ?_, ?_, ?_⟩
  · -- Nodup of activeIds st'
    rw [activeIds, hst]
    simp only [List.map_append]
    have hdisj : ∀ j ∈ List.map Producer.id l₁ ++
        List.map Producer.id (if rest.isEmpty then ([] : List Producer) else [⟨p.id, rest⟩]) ++
        List.map Producer.id l₂, j ≤ st.counter := by
      intro j hj
      simp only [List.mem_append] at hj
      rcases hj with (hj | hj) | hj
      · exact holdle j (hmemA j hj)
      · by_cases hre : rest.isEmpty
        · rw [if_pos hre] at hj; cases hj
        · rw [if_neg hre] at hj
          simp only [List.map_cons, List.map_nil, List.mem_singleton] at hj
          subst hj
          exact hpb.2.1
      · exact holdle j (hmemC j hj)
    rw [show ∀ (A B C D : List Nat), A ++ B ++ C ++ D = (A ++ B ++ C) ++ D by
      intro A B C D; simp [List.append_assoc]]
    rw [List.nodup_append]
    refine ⟨?_, hndfresh, ?_⟩
    · -- Nodup (A ++ B ++ C)
      by_cases hre : rest.isEmpty
      · simp only [if_pos hre, List.map_nil, List.append_nil]
        have hsub : List.Sublist
            (List.map Producer.id l₁ ++ List.map Producer.id l₂)
            (List.map Producer.id l₁ ++ Producer.id p :: List.map Producer.id l₂) :=
          List.Sublist.append_left (List.sublist_cons_self _ _) _
        exact hnd.sublist hsub
      · simp only [if_neg hre, List.map_cons, List.map_nil]
        simpa using hnd
    · -- disjointness with the fresh ids
      intro j hjold hjnew
      have h1 := hdisj j hjold
      have h2 : st.counter < j := by
        rw [List.mem_map] at hjnew
        obtain ⟨q, hq, hqe⟩ := hjnew
        have := hidb q hq
        omega
      omega
  · -- bounds and pending frames in st'
    intro q hq
    have hcnt' : st'.counter = (flattenVal sc rv st.counter).2.1 := by rw [hst]
    rcases hmem' q hq with hq1 | hq1 | ⟨hre, hq1⟩ | hq1
    · have := hwf.2 q (hothers q (Or.inl hq1))
      refine ⟨this.1, by omega, this.2.2⟩
    · have := hwf.2 q (hothers q (Or.inr hq1))
      refine ⟨this.1, by omega, this.2.2⟩
    · subst hq1
      refine ⟨hpb.1, ?_, ?_⟩
      · show p.id ≤ st'.counter
        have := hpb.2.1
        omega
      · show rest ≠ []
        intro hnil
        rw [hnil] at hre
        simp at hre
    · have := hidb q hq1
      refine ⟨by omega, by omega, hfne q hq1⟩
  · rw [hst]; exact hcle
  · rw [hch]
    simp only
    rw [activeIds, hact]
    simp
  · rw [hch]
    exact flattenVal_refs_bounds sc rv st.counter
  · intro i hi
    rw [activeIds, List.mem_map] at hi
    obtain ⟨q, hq, hqe⟩ := hi
    rcases hmem' q hq with hq1 | hq1 | ⟨hre, hq1⟩ | hq1
    · exact Or.inl (hqe ▸ hmemA q.id (List.mem_map_of_mem _ hq1))
    · exact Or.inl (hqe ▸ hmemC q.id (List.mem_map_of_mem _ hq1))
    · subst hq1
      refine Or.inl ?_
      have hq2 : (⟨p.id, rest⟩ : Producer).id = p.id := rfl
      rw [hq2] at hqe
      rw [← hqe, activeIds]
      exact List.mem_map_of_mem _ hpmem
    · have := hidb q hq1
      exact Or.inr (by omega)

/-- Dissection of a successful run with a nonempty schedule. -/
theorem encodeRun_cons {sc : StatusCodes} {st : EncSt} {k : Nat} {s : List Nat}
    {chs : List Chunk} {stF : EncSt}
    (h : encodeRun sc st (k :: s) = some (chs, stF)) :
    ∃ ch st₁ chs', encStep sc st k = some (ch, st₁) ∧
      encodeRun sc st₁ s = some (chs', stF) ∧ chs = ch :: chs' := by
  unfold encodeRun at h
  split at h
  · exact absurd h (by simp)
  · rename_i ch st₁ hstep
    split at h
    · exact absurd h (by simp)
    · rename_i chs' stF' hrun
      simp only [Option.some.injEq, Prod.mk.injEq] at h
      exact ⟨ch, st₁, chs', hstep, h.2 ▸ hrun, h.1.symm⟩

/-- Dissection of a successful run with the empty schedule. -/
theorem encodeRun_nil {sc : StatusCodes} {st : EncSt} {chs : List Chunk}
    {stF : EncSt} (h : encodeRun sc st [] = some (chs, stF)) :
    chs = [] ∧ stF = st := by
  simp only [encodeRun, Option.some.injEq, Prod.mk.injEq] at h
  exact ⟨h.1.symm, h.2.symm⟩

/-- Facts accumulated along a run: the counter grows, every emitted payload
references only ids freshly allocated after the run began, and every emitted
chunk id was active at the start or freshly allocated. -/
theorem encodeRun_facts {sc : StatusCodes} :
    ∀ (s : List Nat) (st : EncSt) (chs : List Chunk) (stF : EncSt),
      encodeRun sc st s = some (chs, stF) → WF st →
      st.counter ≤ stF.counter ∧
      (∀ c ∈ chs, refsAbove st.counter c.2.2) ∧
      (∀ c ∈ chs, c.1 ∈ activeIds st ∨ st.counter < c.1) := by
  intro s
  induction s with
  | nil =>
    intro st chs stF h _
    obtain ⟨h1, h2⟩ := encodeRun_nil h
    subst h1
    subst h2
    exact ⟨le_refl _, by simp, by simp⟩
  | cons k s' ih =>
    intro st chs stF h hwf
    obtain ⟨ch, st₁, chs', hstep, hrun, hchs⟩ := encodeRun_cons h
    obtain ⟨hwf₁, hcnt, hchid, hchrefs, hsub⟩ := encStep_wf hstep hwf
    obtain ⟨hcnt', hrefs', hids'⟩ := ih st₁ chs' stF hrun hwf₁
    subst hchs
    refine ⟨le_trans hcnt hcnt', ?_, ?_⟩
    · intro c hc
      rcases List.mem_cons.mp hc with hc | hc
      · subst hc; exact hchrefs
      · exact refsAbove_mono hcnt (hrefs' c hc)
    · intro c hc
      rcases List.mem_cons.mp hc with hc | hc
      · subst hc; exact Or.inl hchid
      · rcases hids' c hc with hin | hgt
        · rcases hsub c.1 hin with hin2 | hgt2
          · exact Or.inl hin2
          · exact Or.inr hgt2
        · exact Or.inr (lt_of_le_of_lt hcnt hgt)

/-- A pointwise change of frame map that decodes all delivered payloads
identically preserves faithfulness of a delivery list. -/
theorem forall2_good_congr {sc : StatusCodes}
    {fr fr' : Nat → List (Nat × Payload)} :
    ∀ (dl : List (Nat × Payload)),
      (∀ d ∈ dl, ∀ fuel, unflat sc fr fuel d.2 = unflat sc fr' fuel d.2) →
      ∀ frs, List.Forall₂ (GoodFrame sc fr') frs dl →
        List.Forall₂ (GoodFrame sc fr) frs dl := by
  intro dl
  induction dl with
  | nil =>
    intro _ frs h
    cases h
    exact List.Forall₂.nil
  | cons d dl' ih =>
    intro hpt frs h
    cases h with
    | cons hhd htl =>
      refine List.Forall₂.cons ⟨hhd.1, ?_⟩
        (ih (fun e he fuel => hpt e (List.mem_cons_of_mem _ he) fuel) _ htl)
      obtain ⟨f, hf⟩ := hhd.2
      exact ⟨f, by rw [hpt d (List.mem_cons_self _ _) f]; exact hf⟩

/-- Transfer of producer faithfulness across frame maps that agree on the
producer's sink and decode its delivered payloads identically. -/
theorem GoodP_congr {sc : StatusCodes} {fr fr' : Nat → List (Nat × Payload)}
    {q : Producer} (hfrq : fr q.id = fr' q.id)
    (hpt : ∀ d ∈ fr' q.id, ∀ fuel, unflat sc fr fuel d.2 = unflat sc fr' fuel d.2)
    (hg : GoodP sc fr' q) : GoodP sc fr q := by
  unfold GoodP at hg ⊢
  rw [hfrq]
  exact forall2_good_congr _ hpt _ hg

/-- Main multiplexer invariant: in a complete run (one that drains the
active set), every active producer's frames reach the stream exactly in
script order, and each frame's payload decodes — against the whole stream —
to the raw value the producer stringified. -/
theorem encodeRun_good {sc : StatusCodes} (hok : sc.ok) :
    ∀ (s : List Nat) (st : EncSt) (chs : List Chunk) (stF : EncSt),
      encodeRun sc st s = some (chs, stF) → stF.active = [] → WF st →
      ∀ q ∈ st.active, GoodP sc (fun i => framesFor i chs) q := by
  intro s
  induction s with
  | nil =>
    intro st chs stF h hF hwf q hq
    obtain ⟨h1, h2⟩ := encodeRun_nil h
    subst h2
    rw [hF] at hq
    cases hq
  | cons k s' ih =>
    intro st chs stF h hF hwf q hq
    obtain ⟨ch, st₁, chs', hstep, hrun, hchs⟩ := encodeRun_cons h
    subst hchs
    obtain ⟨l₁, p, l₂, status, rv, rest, hact, hfrm, hch, hst⟩ := encStep_eq hstep
    obtain ⟨hwf₁, hcnt, _, _, _⟩ := encStep_wf hstep hwf
    have hgood' := ih st₁ chs' stF hrun hF hwf₁
    obtain ⟨_, hrefs', hids'⟩ := encodeRun_facts s' st₁ chs' stF hrun hwf₁
    have hpmem : p ∈ st.active := by rw [hact]; simp
    have hile : p.id ≤ st.counter := (hwf.2 p hpmem).2.1
    have hch1 : ch.1 = p.id := by rw [hch]
    -- frames of other ids are untouched by the head chunk
    have hfrne : ∀ j, j ≠ p.id → framesFor j (ch :: chs') = framesFor j chs' :=
      fun j hj => framesFor_cons_ne (by rw [hch1]; exact fun hc => hj hc.symm) chs'
    -- payloads already in the tail reference only fresh ids
    have hbody : ∀ j, ∀ d ∈ framesFor j chs', refsAbove p.id d.2 := by
      intro j d hd
      have := hrefs' (j, d) (framesFor_mem hd)
      exact refsAbove_mono (le_trans hile hcnt) this
    -- decoding transfers between the whole stream and the tail
    have htrans : ∀ (p₂ : Payload), refsAbove p.id p₂ → ∀ fuel,
        unflat sc (fun i => framesFor i (ch :: chs')) fuel p₂ =
          unflat sc (fun i => framesFor i chs') fuel p₂ := by
      intro p₂ hp₂ fuel
      refine unflat_congr sc ?_ ?_ fuel p₂ hp₂
      · intro j hj
        exact hfrne j (by omega)
      · intro j _ d hd
        exact hbody j d hd
    have hptAll : ∀ j, ∀ d ∈ framesFor j chs', ∀ fuel,
        unflat sc (fun i => framesFor i (ch :: chs')) fuel d.2 =
          unflat sc (fun i => framesFor i chs') fuel d.2 :=
      fun j d hd fuel => htrans d.2 (hbody j d hd) fuel
    -- membership into the successor state
    have hmem₁ : ∀ q', q' ∈ l₁ ∨ q' ∈ l₂ ∨
        q' ∈ (flattenVal sc rv st.counter).2.2 → q' ∈ st₁.active := by
      intro q' hq'
      rw [hst]
      simp only [List.mem_append]
      rcases hq' with h' | h' | h' <;> tauto
    -- transfer of faithfulness for any producer with another id
    have htransGood : ∀ q', q'.id ≠ p.id →
        GoodP sc (fun i => framesFor i chs') q' →
        GoodP sc (fun i => framesFor i (ch :: chs')) q' := by
      intro q' hne hg
      exact GoodP_congr (hfrne q'.id hne) (fun d hd fuel => hptAll q'.id d hd fuel) hg
    -- faithfulness of the freshly registered producers, against the whole stream
    have hfreshGood : ∀ q' ∈ (flattenVal sc rv st.counter).2.2,
        GoodP sc (fun i => framesFor i (ch :: chs')) q' := by
      intro q' hq'
      have hid' := flattenVal_id_bounds sc rv st.counter q' hq'
      exact htransGood q' (by omega)
        (hgood' q' (hmem₁ q' (Or.inr (Or.inr hq'))))
    -- the head frame's payload decodes to the stringified raw value
    have hhead : ∃ fuel,
        unflat sc (fun i => framesFor i (ch :: chs')) fuel
          (flattenVal sc rv st.counter).1 = some rv :=
      flatten_sound sc hok _ rv st.counter hfreshGood
    -- nodup structure of the active list
    have hnd : (List.map Producer.id l₁ ++
        Producer.id p :: List.map Producer.id l₂).Nodup := by
      have := hwf.1
      rw [activeIds, hact] at this
      simpa using this
    have hndparts := List.nodup_append.mp hnd
    -- now settle each q in the original active set
    rw [hact] at hq
    rcases List.mem_append.mp hq with hq1 | hq1
    · -- q before the chosen producer
      have hne : q.id ≠ p.id := by
        intro he
        exact (hndparts.2.2 (List.mem_map_of_mem Producer.id hq1))
          (he ▸ List.mem_cons_self _ _)
      exact htransGood q hne (hgood' q (hmem₁ q (Or.inl hq1)))
    · rcases List.mem_cons.mp hq1 with hq2 | hq2
      · -- q is the chosen producer
        subst hq2
        show List.Forall₂ (GoodFrame sc (fun i => framesFor i (ch :: chs')))
          q.frames (framesFor q.id (ch :: chs'))
        rw [hfrm, framesFor_cons_self hch1]
        have hchv : ch.2 = (status, (flattenVal sc rv st.counter).1) := by rw [hch]
        rw [hchv]
        by_cases hre : rest.isEmpty
        · -- the emitted frame was terminal: the sink gets nothing further
          have hrnil : rest = [] := by
            cases rest with
            | nil => rfl
            | cons a b => simp at hre
          subst hrnil
          have hpnotin : Producer.id q ∉ activeIds st₁ := by
            rw [activeIds, hst]
            simp only [if_pos hre, List.map_append, List.mem_append,
              List.map_nil, List.append_nil]
            intro hin
            rcases hin with (hin | hin) | hin
            · exact (hndparts.2.2 hin) (List.mem_cons_self _ _)
            · exact (List.nodup_cons.mp hndparts.2.1).1 hin
            · rw [List.mem_map] at hin
              obtain ⟨q', hq', hqe⟩ := hin
              have := flattenVal_id_bounds sc rv st.counter q' hq'
              omega
          have hnil : framesFor (Producer.id q) chs' = [] := by
            refine framesFor_eq_nil ?_
            intro c hc
            rcases hids' c hc with hin | hgt
            · intro he; exact hpnotin (he ▸ hin)
            · have hc1 : st.counter ≤ st₁.counter := hcnt
              omega
          rw [hnil]
          exact List.Forall₂.cons ⟨rfl, hhead⟩ List.Forall₂.nil
        · -- the producer stays active with its remaining frames
          have hmidmem : (⟨Producer.id q, rest⟩ : Producer) ∈ st₁.active := by
            rw [hst]
            simp only [if_neg hre, List.mem_append, List.mem_singleton]
            tauto
          have hmid := hgood' _ hmidmem
          have hmid' : List.Forall₂
              (GoodFrame sc (fun i => framesFor i (ch :: chs'))) rest
              (framesFor (Producer.id q) chs') :=
            forall2_good_congr _ (fun d hd fuel => hptAll _ d hd fuel) _ hmid
          exact List.Forall₂.cons ⟨rfl, hhead⟩ hmid'
      · -- q after the chosen producer
        have hne : q.id ≠ p.id := by
          intro he
          exact (List.nodup_cons.mp hndparts.2.1).1
            (he ▸ List.mem_map_of_mem Producer.id hq2)
        exact htransGood q hne (hgood' q (hmem₁ q (Or.inr (Or.inl hq2))))

/-! The decoder pump delivers every chunk of an encoder-produced stream to a
registered sink (spec invariant D1): a chunk's id placeholder always appears
in the root payload or in an earlier chunk's payload, whose decoding
registered the sink. -/

/-- Along an encoder run, delivery never drops a chunk: whenever every
initially active id already has a sink, the pump enqueues every chunk, in
order, to the sink of its id. -/
theorem pump_delivers {sc : StatusCodes} :
    ∀ (s : List Nat) (st : EncSt) (chs : List Chunk) (stF : EncSt),
      encodeRun sc st s = some (chs, stF) →
      ∀ (sinks : List Nat) (lg : List (Nat × Msg)),
        (∀ j ∈ activeIds st, j ∈ sinks) →
        (chs.foldl pumpStep ⟨sinks, lg⟩).delivered =
          lg ++ chs.map (fun c => (c.1, Msg.frame c.2.1 c.2.2)) := by
  intro s
  induction s with
  | nil =>
    intro st chs stF h sinks lg _
    obtain ⟨h1, _⟩ := encodeRun_nil h
    subst h1
    simp
  | cons k s' ih =>
    intro st chs stF h sinks lg hsinks
    obtain ⟨ch, st₁, chs', hstep, hrun, hchs⟩ := encodeRun_cons h
    subst hchs
    obtain ⟨l₁, p, l₂, status, rv, rest, hact, hfrm, hch, hst⟩ := encStep_eq hstep
    have hchid : ch.1 ∈ activeIds st := by
      rw [hch, activeIds, hact]
      simp
    have hrefs : ch.2.2.refs =
        List.map Producer.id (flattenVal sc rv st.counter).2.2 := by
      rw [hch]
      exact (flattenVal_spec sc rv st.counter).2.2.1
    have hsinks₁ : ∀ j ∈ activeIds st₁, j ∈ sinks ++ ch.2.2.refs := by
      intro j hj
      rw [activeIds, hst, List.map_append, List.map_append, List.map_append] at hj
      simp only [List.mem_append] at hj
      rcases hj with ((hj | hj) | hj) | hj
      · refine List.mem_append.mpr (Or.inl (hsinks j ?_))
        rw [activeIds, hact]
        simp only [List.map_append, List.mem_append]
        exact Or.inl hj
      · by_cases hre : rest.isEmpty
        · rw [if_pos hre] at hj; cases hj
        · rw [if_neg hre] at hj
          simp only [List.map_cons, List.map_nil, List.mem_singleton] at hj
          subst hj
          refine List.mem_append.mpr (Or.inl (hsinks _ ?_))
          rw [activeIds, hact]
          simp
      · refine List.mem_append.mpr (Or.inl (hsinks j ?_))
        rw [activeIds, hact]
        simp only [List.map_append, List.map_cons, List.mem_append, List.mem_cons]
        exact Or.inr (Or.inr hj)
      · exact List.mem_append.mpr (Or.inr (hrefs ▸ hj))
    have hstep1 : pumpStep ⟨sinks, lg⟩ ch =
        ⟨sinks ++ ch.2.2.refs, lg ++ [(ch.1, Msg.frame ch.2.1 ch.2.2)]⟩ := by
      rw [pumpStep]
      simp only [if_pos (List.mem_append.mpr (Or.inl (hsinks ch.1 hchid)))]
    rw [List.foldl_cons, hstep1,
      ih st₁ chs' stF hrun (sinks ++ ch.2.2.refs) _ hsinks₁]
    simp

/-- Frames extracted from a pure frame log. -/
theorem frames_of_log (i : Nat) (chs : List Chunk) :
    (chs.map (fun c => (c.1, Msg.frame c.2.1 c.2.2))).filterMap
      (fun d => match d with
        | (j, Msg.frame s p) => if j = i then some (s, p) else none
        | (_, Msg.interrupted) => none) = framesFor i chs := by
  rw [framesFor]
  simp only [List.filterMap_map]
  rfl

/-- The end-of-stream interrupt broadcast adds no frames to any sink. -/
theorem sinkFrames_finishJson (i : Nat) (st : DecSt) :
    sinkFrames i (pumpFinishJson st) = sinkFrames i st := by
  rw [sinkFrames, pumpFinishJson]
  simp only [List.filterMap_append]
  rw [show (st.sinks.map (fun j => (j, Msg.interrupted))).filterMap
      (fun d => match d with
        | (j, Msg.frame s p) => if j = i then some (s, p) else none
        | (_, Msg.interrupted) => none) = [] from ?_]
  · simp [sinkFrames]
  · rw [List.filterMap_eq_nil_iff]
    intro a ha
    rw [List.mem_map] at ha
    obtain ⟨j, _, hj⟩ := ha
    rw [← hj]

/-- The initial encoder state of a complete encode satisfies the invariant. -/
theorem initial_wf (sc : StatusCodes) (v : Val) :
    WF ⟨(flattenVal sc v 0).2.1, (flattenVal sc v 0).2.2⟩ := by
  constructor
  · show (List.map Producer.id (flattenVal sc v 0).2.2).Nodup
    rw [(flattenVal_spec sc v 0).2.1]
    exact List.nodup_range' _ _
  · intro p hp
    have h1 := flattenVal_id_bounds sc v 0 p hp
    refine ⟨by omega, ?_, (flattenVal_spec sc v 0).2.2.2 p hp⟩
    show p.id ≤ (flattenVal sc v 0).2.1
    omega

/-- General round trip at frame level, decoding against the sink contents of
the JSON-array decoder's pump: a complete encode of `v` decodes to `v`. -/
theorem roundTrip_json (sc : StatusCodes) (hok : sc.ok) (v : Val)
    (s : List Nat) (pl : Payload) (chs : List Chunk)
    (h : stringifyAsyncModel sc v s = some (pl, chs)) :
    ∃ fuel,
      unflat sc (fun i => sinkFrames i (parseAsyncPump pl chs)) fuel pl = some v := by
  simp only [stringifyAsyncModel] at h
  split at h
  · exact absurd h (by simp)
  · rename_i chs₂ stF hrun
    split at h
    · rename_i hemp
      simp only [Option.some.injEq, Prod.mk.injEq] at h
      obtain ⟨hpl, hchs⟩ := h
      have hF : stF.active = [] := List.isEmpty_iff.mp hemp
      have hwf0 := initial_wf sc v
      have hgood := encodeRun_good hok s _ chs₂ stF hrun hF hwf0
      have hsinks0 : ∀ j ∈ activeIds
          ⟨(flattenVal sc v 0).2.1, (flattenVal sc v 0).2.2⟩,
          j ∈ ((flattenVal sc v 0).1).refs := by
        intro j hj
        rw [(flattenVal_spec sc v 0).2.2.1]
        exact hj
      have hdel := pump_delivers s _ chs₂ stF hrun
        ((flattenVal sc v 0).1).refs [] hsinks0
      simp only [List.nil_append] at hdel
      have hbridge : (fun i =>
          sinkFrames i (parseAsyncPump (flattenVal sc v 0).1 chs₂)) =
          (fun i => framesFor i chs₂) := by
        funext i
        rw [parseAsyncPump, sinkFrames_finishJson, sinkFrames, hdel,
          frames_of_log]
      rw [← hpl, ← hchs, hbridge]
      exact flatten_sound sc hok _ v 0 hgood
    · exact absurd h (by simp)

/-- General round trip for the delimited decoder's pump, which differs only
in its (empty) end-of-stream handling. -/
theorem roundTrip_delim (sc : StatusCodes) (hok : sc.ok) (v : Val)
    (s : List Nat) (pl : Payload) (chs : List Chunk)
    (h : stringifyAsyncModel sc v s = some (pl, chs)) :
    ∃ fuel,
      unflat sc (fun i => sinkFrames i (parseAsyncIterablePump pl chs)) fuel pl
        = some v := by
  have hjson := roundTrip_json sc hok v s pl chs h
  have hbridge : (fun i => sinkFrames i (parseAsyncIterablePump pl chs)) =
      (fun i => sinkFrames i (parseAsyncPump pl chs)) := by
    funext i
    rw [parseAsyncPump, parseAsyncIterablePump, pumpFinishDelim,
      sinkFrames_finishJson]
  rw [hbridge]
  exact hjson

/-! The colon-delimited string framing of `async.js` (`parseAsyncIterable`'s
pump, lines 296-310), with JavaScript's `indexOf` / `slice` semantics. -/

/-- Index of the first occurrence of a character, `String.indexOf` style. -/
def idxOf (c : Char) : List Char → Option Nat
  | [] => none
  | a :: rest => if a = c then some 0 else (idxOf c rest).map (· + 1)

/-- Decimal value of a digit list. -/
def digitsToNat (s : List Char) : Nat :=
  s.foldl (fun acc c => acc * 10 + (c.toNat - 48)) 0

/-- `asNumberOrThrow` (`async.js` lines 188-193): accept only nonempty
all-digit strings (the regex is anchored), else throw. -/
def asNumberOrThrow (s : List Char) : Option Nat :=
  if s ≠ [] ∧ s.all Char.isDigit then some (digitsToNat s) else none

/-- The slice before the first `':'`.  When the delimiter is missing,
`indexOf` yields `-1` and `str.slice(0, -1)` drops the last character —
exactly what the pump computes, not an error. -/
def headerField (s : List Char) : List Char :=
  match idxOf ':' s with
  | some i => s.take i
  | none => s.dropLast

/-- The slice after the first `':'`.  When the delimiter is missing,
`str.slice(-1 + 1)` is `str.slice(0)`: the whole string. -/
def headerRest (s : List Char) : List Char :=
  match idxOf ':' s with
  | some i => s.drop (i+1)
  | none => s

/-- Header parsing of one producer chunk in the delimited pump
(`async.js` lines 300-306): id before the first `':'`, status between the
first and second, the entire remainder is the payload text. -/
def parseHeaderDelim (s : List Char) : Option (Nat × Nat × List Char) :=
  match asNumberOrThrow (headerField s) with
  | none => none
  | some idx =>
    match asNumberOrThrow (headerField (headerRest s)) with
    | none => none
    | some status => some (idx, status, headerRest (headerRest s))

/-- The delimited pump over raw chunk strings (`async.js` lines 291-323):
split the header, decode the payload with the synchronous parser `pd`
(modelled from the spec: `parse.js` is not in src), and deliver; any
exception — header or payload — is caught by the pump's `catch`, which
enqueues a stream-interrupted error to every registered sink and exits.
On normal end of stream, nothing is delivered. -/
def pumpDelimChunks (pd : List Char → Option Payload) :
    List (List Char) → DecSt → DecSt
  | [], st => st
  | s :: rest, st =>
    match parseHeaderDelim s with
    | none =>
      { st with delivered :=
          st.delivered ++ st.sinks.map (fun i => (i, Msg.interrupted)) }
    | some (idx, status, payloadTxt) =>
      match pd payloadTxt with
      | none =>
        { st with delivered :=
            st.delivered ++ st.sinks.map (fun i => (i, Msg.interrupted)) }
      | some pl => pumpDelimChunks pd rest (pumpStep st (idx, status, pl))

/-- `safeCause` (`async.js` lines 72-82): try to stringify the cause; if
that throws and `coerceError` is not set, rethrow; otherwise stringify the
coerced cause.  `enc` is the (fallible) recursive stringify. -/
def safeCause (enc : Val → Except String Payload)
    (coerceError : Option (Val → Val)) (cause : Val) : Except String Payload :=
  match enc cause with
  | .ok p => .ok p
  | .error e =>
    match coerceError with
    | none => .error e
    | some f => enc (f cause)

/-- Head handling of `parseAsync` (`part_000` lines 274-275): the head is
the stream's first element; on an empty stream `head.value` is `undefined`
and `JSON.parse(undefined)` throws a `SyntaxError`, so the returned future
rejects before any pump starts. -/
def parseAsyncHead (chunks : List (List Char)) : Except Unit (List Char) :=
  match chunks.head? with
  | none => .error ()
  | some h => .ok h

/-- Head handling of `parseAsyncIterable` (`async.js` lines 289-326).
Modelled from the spec: `parse.js` is not in src; the synchronous parse
operation applied to the absent head (`undefined`) fails, so the returned
future rejects. -/
def parseAsyncIterableHead (chunks : List (List Char)) : Except Unit (List Char) :=
  match chunks.head? with
  | none => .error ()
  | some h => .ok h

/-- Whether a sequence behaviour terminates abnormally. -/
def SeqB.termIsErr : SeqB → Bool
  | .ret _ => false
  | .err _ => true
  | .yld _ rest => rest.termIsErr

/-- The terminal value of a sequence behaviour. -/
def SeqB.termVal : SeqB → Val
  | .ret v => v
  | .err v => v
  | .yld _ rest => rest.termVal

/-- The last frame of a sequence producer's script carries the variant's
RETURN status on normal termination and its ERROR status on abnormal
termination, together with the terminal value. -/
theorem seqFrames_getLast (sc : StatusCodes) : ∀ (b : SeqB),
    (seqFrames sc b).getLast? =
      some ((if b.termIsErr then sc.seqError else sc.seqReturn), b.termVal) := by
  intro b
  match b with
  | .ret v => simp [seqFrames, SeqB.termIsErr, SeqB.termVal]
  | .err v => simp [seqFrames, SeqB.termIsErr, SeqB.termVal]
  | .yld item rest =>
    have ih := seqFrames_getLast sc rest
    rw [seqFrames, SeqB.termIsErr, SeqB.termVal, List.getLast?_cons, ih]
    simp [seqFrames_ne_nil]

/-- `indexOf` finds the first delimiter right after a delimiter-free
prefix. -/
theorem idxOf_append_cons (c : Char) (r : List Char) :
    ∀ (a : List Char), c ∉ a → idxOf c (a ++ c :: r) = some a.length := by
  intro a
  induction a with
  | nil => intro _; simp [idxOf]
  | cons x a' ih =>
    intro hx
    have hxc : ¬ (x = c) := fun he => hx (by rw [he]; exact List.mem_cons_self _ _)
    rw [List.cons_append, idxOf, if_neg hxc, ih (fun hmem => hx (List.mem_cons_of_mem _ hmem))]
    rfl

/-- A digit is not the delimiter. -/
theorem digit_ne_colon {c : Char} (h : c.isDigit = true) : ¬ (c = ':') := by
  intro he
  rw [he] at h
  exact absurd h (by decide)

/-- An all-digit field contains no delimiter. -/
theorem digits_no_colon {a : List Char} (h : a.all Char.isDigit = true) :
    (':' : Char) ∉ a := by
  intro hmem
  rw [List.all_eq_true] at h
  exact digit_ne_colon (h _ hmem) rfl

/-- Splitting off a delimiter-free field: the part before the first `':'`. -/
theorem headerField_split {a : List Char} (ha : (':' : Char) ∉ a)
    (r : List Char) : headerField (a ++ ':' :: r) = a := by
  rw [headerField, idxOf_append_cons ':' r a ha]
  exact List.take_left a (':' :: r)

/-- Splitting off a delimiter-free field: the part after the first `':'`. -/
theorem headerRest_split {a : List Char} (ha : (':' : Char) ∉ a)
    (r : List Char) : headerRest (a ++ ':' :: r) = r := by
  rw [headerRest, idxOf_append_cons ':' r a ha]
  show List.drop (a.length + 1) (a ++ ':' :: r) = r
  rw [List.append_cons]
  have hl : a.length + 1 = (a ++ [':']).length := by simp
  rw [hl]
  exact List.drop_left (a ++ [':']) r

/-- The interrupt broadcast enqueues one interrupt per occurrence of the id
in the sink registry. -/
theorem interrupted_broadcast (i : Nat) : ∀ (sinks : List Nat),
    (sinks.map (fun j => (j, Msg.interrupted))).filterMap
      (fun d => if d.1 = i then some d.2 else none) =
      List.replicate (sinks.count i) Msg.interrupted := by
  intro sinks
  induction sinks with
  | nil => rfl
  | cons j rest ih =>
    by_cases hj : j = i
    · subst hj
      simp [List.filterMap_cons, ih, List.replicate_succ, List.count_cons]
    · simp [List.filterMap_cons, hj, ih, List.count_cons, Ne.symm hj]

/-- Message log of a sink after the JSON decoder's end-of-stream broadcast:
its previous messages followed by one interrupt per registration of its
id. -/
theorem msgsTo_finishJson (i : Nat) (st : DecSt) :
    msgsTo i (pumpFinishJson st) =
      msgsTo i st ++ List.replicate (st.sinks.count i) Msg.interrupted := by
  rw [msgsTo, pumpFinishJson]
  simp only [List.filterMap_append]
  rw [interrupted_broadcast]
  rfl

/-- A registered sink occurs in the registry. -/
theorem count_pos_of_mem {i : Nat} {sinks : List Nat} (h : i ∈ sinks) :
    0 < sinks.count i :=
  List.count_pos_iff.mpr h

/-- The JSON-array variant's status codes are mutually distinguishable. -/
theorem jsonCodes_ok : jsonCodes.ok :=
  ⟨by decide, by decide, by decide, by decide⟩

/-- The delimited variant's status codes are mutually distinguishable. -/
theorem delimCodes_ok : delimCodes.ok :=
  ⟨by decide, by decide, by decide, by decide⟩

/-- A concrete well-formed single-producer encoder state. -/
theorem wf_single_producer : WF ⟨1, [⟨1, [(0, Val.atom 5)]⟩]⟩ :=
  ⟨by decide, by decide⟩

/-! Claim theorems. -/

/-- C1: Round-trip — for every value tree mixing plain data, futures and
sequences, and every completing schedule of the encoder's race, feeding the
encoder's chunk stream (`stringifyAsync` / `stringifyAsyncIterable`) to the
matching decoder pump (`parseAsync` / `parseAsyncIterable`) makes the root
payload decode, against the frames each sink received, to a value tree equal
to the original: every plain subvalue is deep-equal, every future settles in
the same terminal state, and every sequence yields the same ordered items
with the same terminal state.  Holds in both framing variants. -/
theorem c1_round_trip (v : Val) (s : List Nat) (pl : Payload)
    (chs : List Chunk) :
    (stringifyAsyncModel jsonCodes v s = some (pl, chs) →
      ∃ fuel,
        unflat jsonCodes (fun i => sinkFrames i (parseAsyncPump pl chs)) fuel pl
          = some v) ∧
    (stringifyAsyncModel delimCodes v s = some (pl, chs) →
      ∃ fuel,
        unflat delimCodes
          (fun i => sinkFrames i (parseAsyncIterablePump pl chs)) fuel pl
          = some v) :=
  ⟨fun h => roundTrip_json jsonCodes jsonCodes_ok v s pl chs h,
   fun h => roundTrip_delim delimCodes delimCodes_ok v s pl chs h⟩

/-- C1 witness: a pair holding a plain atom and a fulfilled future round
trips through the JSON-array encoder and decoder pump. -/
theorem c1_round_trip_witness :
    stringifyAsyncModel jsonCodes (Val.pair (Val.atom 1) (Val.futOk (Val.atom 2)))
        [0] = some (Payload.pair (Payload.atom 1) (Payload.promiseRef 1),
          [(1, 0, Payload.atom 2)]) ∧
    ∃ fuel,
      unflat jsonCodes
        (fun i => sinkFrames i (parseAsyncPump
          (Payload.pair (Payload.atom 1) (Payload.promiseRef 1))
          [(1, 0, Payload.atom 2)])) fuel
        (Payload.pair (Payload.atom 1) (Payload.promiseRef 1)) =
        some (Val.pair (Val.atom 1) (Val.futOk (Val.atom 2))) :=
  ⟨rfl,
    (c1_round_trip (Val.pair (Val.atom 1) (Val.futOk (Val.atom 2))) [0]
      (Payload.pair (Payload.atom 1) (Payload.promiseRef 1))
      [(1, 0, Payload.atom 2)]).1 rfl⟩

/-- C2 counterexample: the claim fixes SEQ_RETURN = 2 and SEQ_ERROR = 1 in
both framing variants, but the delimited variant (`async.js` lines 32-33)
declares RETURN = 1 and ERROR = 2. -/
theorem c2_counterexample :
    ¬ (StreamDelim.ASYNC_ITERABLE_STATUS_RETURN = 2 ∧
       StreamDelim.ASYNC_ITERABLE_STATUS_ERROR = 1) := by decide

/-- C2 (amended): FUTURE_OK = 0, FUTURE_ERR = 1 and SEQ_YIELD = 0 in both
variants; SEQ_RETURN / SEQ_ERROR are 2 / 1 in the JSON-array variant but
1 / 2 in the delimited variant; and every sequence producer's terminal frame
carries its variant's SEQ_RETURN status on normal termination with the
return value, and its variant's SEQ_ERROR status on abnormal termination. -/
theorem c2_status_codes :
    StreamJson.PROMISE_STATUS_FULFILLED = 0 ∧
    StreamJson.PROMISE_STATUS_REJECTED = 1 ∧
    StreamDelim.PROMISE_STATUS_FULFILLED = 0 ∧
    StreamDelim.PROMISE_STATUS_REJECTED = 1 ∧
    StreamJson.ASYNC_ITERABLE_STATUS_YIELD = 0 ∧
    StreamJson.ASYNC_ITERABLE_STATUS_RETURN = 2 ∧
    StreamJson.ASYNC_ITERABLE_STATUS_ERROR = 1 ∧
    StreamDelim.ASYNC_ITERABLE_STATUS_YIELD = 0 ∧
    StreamDelim.ASYNC_ITERABLE_STATUS_RETURN = 1 ∧
    StreamDelim.ASYNC_ITERABLE_STATUS_ERROR = 2 ∧
    (∀ b : SeqB, (seqFrames jsonCodes b).getLast? =
      some ((if b.termIsErr then StreamJson.ASYNC_ITERABLE_STATUS_ERROR
        else StreamJson.ASYNC_ITERABLE_STATUS_RETURN), b.termVal)) ∧
    (∀ b : SeqB, (seqFrames delimCodes b).getLast? =
      some ((if b.termIsErr then StreamDelim.ASYNC_ITERABLE_STATUS_ERROR
        else StreamDelim.ASYNC_ITERABLE_STATUS_RETURN), b.termVal)) :=
  ⟨rfl, rfl, rfl, rfl, rfl, rfl, rfl, rfl, rfl, rfl,
   fun b => seqFrames_getLast jsonCodes b,
   fun b => seqFrames_getLast delimCodes b⟩

/-- C3 counterexample: the claim asserts that in both variants a truncated
stream delivers a stream-interrupted error to every remaining sink; but the
delimited decoder (`async.js` lines 293-295) exits its pump silently on
normal stream end, so a future whose sink is registered and that never got a
frame stays pending instead of rejecting. -/
theorem c3_counterexample :
    firstRead (msgsTo 1 (parseAsyncIterablePump (Payload.promiseRef 1) [])) =
      SinkRead.pending ∧
    SinkRead.pending ≠ SinkRead.interrupted := by decide

/-- C3 (amended): in the JSON-array variant (`parseAsync`), when the chunk
stream ends while sinks remain registered, every remaining sink receives a
stream-interrupted error after its frames, so a future that received no
frame rejects with stream-interrupted, and a sequence throws it on its next
pull; in the delimited variant (`parseAsyncIterable`) the pump exits without
delivering anything, leaving the remaining sinks pending. -/
theorem c3_truncation (rootPl : Payload) (chs : List Chunk) (i : Nat)
    (hi : i ∈ (chs.foldl pumpStep ⟨rootPl.refs, []⟩).sinks) :
    msgsTo i (parseAsyncPump rootPl chs) =
      msgsTo i (chs.foldl pumpStep ⟨rootPl.refs, []⟩) ++
        List.replicate
          ((chs.foldl pumpStep ⟨rootPl.refs, []⟩).sinks.count i)
          Msg.interrupted ∧
    0 < (chs.foldl pumpStep ⟨rootPl.refs, []⟩).sinks.count i ∧
    (msgsTo i (chs.foldl pumpStep ⟨rootPl.refs, []⟩) = [] →
      firstRead (msgsTo i (parseAsyncPump rootPl chs)) =
        SinkRead.interrupted) ∧
    msgsTo i (parseAsyncIterablePump rootPl chs) =
      msgsTo i (chs.foldl pumpStep ⟨rootPl.refs, []⟩) := by
  have hcnt := count_pos_of_mem hi
  refine ⟨msgsTo_finishJson i _, hcnt, ?_, rfl⟩
  intro hnil
  rw [parseAsyncPump, msgsTo_finishJson, hnil, List.nil_append]
  obtain ⟨m, hm⟩ : ∃ m,
      (chs.foldl pumpStep ⟨rootPl.refs, []⟩).sinks.count i = m + 1 :=
    ⟨_, (Nat.succ_pred_eq_of_pos hcnt).symm⟩
  rw [hm, List.replicate_succ]
  rfl

/-- C3 witness: a stream cut right after a root announcing one future, in
the JSON-array variant, makes that future's sink read stream-interrupted. -/
theorem c3_truncation_witness :
    msgsTo 1 (parseAsyncPump (Payload.promiseRef 1) []) =
      msgsTo 1 (([] : List Chunk).foldl pumpStep
        ⟨(Payload.promiseRef 1).refs, []⟩) ++
        List.replicate
          ((([] : List Chunk).foldl pumpStep
            ⟨(Payload.promiseRef 1).refs, []⟩).sinks.count 1)
          Msg.interrupted ∧
    0 < (([] : List Chunk).foldl pumpStep
      ⟨(Payload.promiseRef 1).refs, []⟩).sinks.count 1 ∧
    (msgsTo 1 (([] : List Chunk).foldl pumpStep
        ⟨(Payload.promiseRef 1).refs, []⟩) = [] →
      firstRead (msgsTo 1 (parseAsyncPump (Payload.promiseRef 1) [])) =
        SinkRead.interrupted) ∧
    msgsTo 1 (parseAsyncIterablePump (Payload.promiseRef 1) []) =
      msgsTo 1 (([] : List Chunk).foldl pumpStep
        ⟨(Payload.promiseRef 1).refs, []⟩) :=
  c3_truncation (Payload.promiseRef 1) [] 1 (by decide)

/-- C4: every future producer's script is a single frame — status FUTURE_OK
with the resolved value on success, status FUTURE_ERR with the cause on
failure — and in any complete encode a single-frame producer contributes
exactly one chunk to the stream, carrying that status and a payload that
decodes back to the raw value; it never emits a second frame. -/
theorem c4_future_producer (sc : StatusCodes) (hok : sc.ok)
    (s : List Nat) (st : EncSt) (chs : List Chunk) (stF : EncSt)
    (hrun : encodeRun sc st s = some (chs, stF)) (hF : stF.active = [])
    (hwf : WF st) :
    (∀ (w : Val) (c : Nat), (flattenVal sc (Val.futOk w) c).2.2 =
      [⟨c+1, [(sc.promFulfilled, w)]⟩]) ∧
    (∀ (w : Val) (c : Nat), (flattenVal sc (Val.futErr w) c).2.2 =
      [⟨c+1, [(sc.promRejected, w)]⟩]) ∧
    (∀ q ∈ st.active, ∀ (st₀ : Nat) (w : Val), q.frames = [(st₀, w)] →
      ∃ pl, framesFor q.id chs = [(st₀, pl)] ∧
        ∃ fuel, unflat sc (fun i => framesFor i chs) fuel pl = some w) := by
  refine ⟨fun w c => rfl, fun w c => rfl, ?_⟩
  intro q hq st₀ w hfrq
  have hg : List.Forall₂ (GoodFrame sc (fun i => framesFor i chs))
      q.frames (framesFor q.id chs) :=
    encodeRun_good hok s st chs stF hrun hF hwf q hq
  rw [hfrq] at hg
  generalize hdl : framesFor q.id chs = dl at hg
  cases hg with
  | cons hd htl =>
    rename_i d dl'
    cases htl
    obtain ⟨st₂, pl⟩ := d
    obtain ⟨hst, f, hu⟩ := hd
    simp only at hst
    subst hst
    exact ⟨pl, rfl, f, hu⟩

/-- C4 witness: a fulfilled future producer in a concrete encode emits
exactly the one chunk `(1, FUTURE_OK, 5)`. -/
theorem c4_future_producer_witness :
    ∃ pl, framesFor 1 [(1, 0, Payload.atom 5)] = [(0, pl)] ∧
      ∃ fuel, unflat jsonCodes (fun i => framesFor i [(1, 0, Payload.atom 5)])
        fuel pl = some (Val.atom 5) :=
  (c4_future_producer jsonCodes jsonCodes_ok [0]
      ⟨1, [⟨1, [(0, Val.atom 5)]⟩]⟩ [(1, 0, Payload.atom 5)] ⟨1, []⟩
      rfl rfl wf_single_producer).2.2
    ⟨1, [(0, Val.atom 5)]⟩ (by decide) 0 (Val.atom 5) rfl

/-- C5: `safeCause` first tries to encode the cause itself; if that
encoding succeeds the result is returned; if it throws and `coerceError` is
set, the encoding of the coerced cause is returned instead; if it throws and
`coerceError` is not set, the encoding failure propagates. -/
theorem c5_safe_cause (enc : Val → Except String Payload)
    (coerceError : Option (Val → Val)) (f : Val → Val) (cause : Val)
    (p : Payload) (e : String) :
    (enc cause = .ok p → safeCause enc coerceError cause = .ok p) ∧
    (enc cause = .error e → safeCause enc (some f) cause = enc (f cause)) ∧
    (enc cause = .error e → safeCause enc none cause = .error e) := by
  refine ⟨fun h => ?_, fun h => ?_, fun h => ?_⟩ <;> simp [safeCause, h]

/-- C5 witness: with an encoder that rejects only atom 0, the three branches
of `safeCause` behave as claimed on concrete inputs. -/
theorem c5_safe_cause_witness :
    (safeCause (fun v => match v with
        | .atom 0 => .error "x"
        | _ => .ok (.atom 9)) none (Val.atom 1) = .ok (Payload.atom 9)) ∧
    (safeCause (fun v => match v with
        | .atom 0 => .error "x"
        | _ => .ok (.atom 9)) (some (fun _ => Val.atom 1)) (Val.atom 0) =
      (fun v => match v with
        | Val.atom 0 => Except.error "x"
        | _ => Except.ok (Payload.atom 9)) ((fun _ => Val.atom 1) (Val.atom 0))) ∧
    (safeCause (fun v => match v with
        | .atom 0 => .error "x"
        | _ => .ok (.atom 9)) none (Val.atom 0) = .error "x") :=
  ⟨(c5_safe_cause (fun v => match v with
        | .atom 0 => .error "x"
        | _ => .ok (.atom 9)) none (fun _ => Val.atom 1) (Val.atom 1)
      (Payload.atom 9) "x").1 rfl,
   (c5_safe_cause (fun v => match v with
        | .atom 0 => .error "x"
        | _ => .ok (.atom 9)) none (fun _ => Val.atom 1) (Val.atom 0)
      (Payload.atom 9) "x").2.1 rfl,
   (c5_safe_cause (fun v => match v with
        | .atom 0 => .error "x"
        | _ => .ok (.atom 9)) none (fun _ => Val.atom 1) (Val.atom 0)
      (Payload.atom 9) "x").2.2 rfl⟩

/-- C7 counterexample: the claim says a chunk with missing delimiters makes
the pump exit with a stream-interrupted broadcast; but for the delimiter-less
chunk `123` JavaScript's `slice(0, -1)` yields the all-digit field `12`, so
the header parses as id 12 and status 12, the payload is the whole chunk,
and the pump continues normally, delivering nothing (the id is unknown) and
interrupting nobody. -/
theorem c7_counterexample :
    parseHeaderDelim ['1', '2', '3'] = some (12, 12, ['1', '2', '3']) ∧
    (pumpDelimChunks (fun _ => some (Payload.atom 0)) [['1', '2', '3']]
      ⟨[1], []⟩).delivered = [] :=
  ⟨rfl, rfl⟩

/-- C7 (amended): a producer chunk whose id or status field is not a
nonempty decimal string — in particular the empty field produced by a
missing delimiter — makes the header parse throw, and on any header-parse
failure the pump stops (the remaining chunks are not processed) and delivers
a stream-interrupted error to every outstanding sink; but a delimiter-less
chunk whose sliced fields happen to be all digits is processed as an
ordinary frame. -/
theorem c7_malformed_header (pd : List Char → Option Payload)
    (s : List Char) (rest : List (List Char)) (st : DecSt) :
    ((headerField s).all Char.isDigit = false → parseHeaderDelim s = none) ∧
    (headerField s = [] → parseHeaderDelim s = none) ∧
    ((headerField (headerRest s)).all Char.isDigit = false →
      parseHeaderDelim s = none) ∧
    (parseHeaderDelim s = none →
      pumpDelimChunks pd (s :: rest) st =
        { st with delivered :=
            st.delivered ++ st.sinks.map (fun i => (i, Msg.interrupted)) }) := by
  refine ⟨?_, ?_, ?_, ?_⟩
  · intro h
    rw [parseHeaderDelim, asNumberOrThrow, if_neg]
    intro hcond
    rw [h] at hcond
    exact absurd hcond.2 (by simp)
  · intro h
    rw [parseHeaderDelim, asNumberOrThrow, if_neg]
    intro hcond
    exact hcond.1 h
  · intro h
    rw [parseHeaderDelim]
    cases h1 : asNumberOrThrow (headerField s) with
    | none => rfl
    | some n =>
      rw [asNumberOrThrow, if_neg]
      intro hcond
      rw [h] at hcond
      exact absurd hcond.2 (by simp)
  · intro h
    rw [pumpDelimChunks, h]

/-- C7 witness: the chunk `ab:0:1` has a non-decimal id field, so its header
parse fails and the pump broadcasts the interrupt to the outstanding sink
and stops. -/
theorem c7_malformed_header_witness :
    (headerField ['a', 'b', ':', '0', ':', '1']).all Char.isDigit = false ∧
    parseHeaderDelim ['a', 'b', ':', '0', ':', '1'] = none ∧
    pumpDelimChunks (fun _ => some (Payload.atom 0))
        [['a', 'b', ':', '0', ':', '1']] ⟨[1], []⟩ =
      { sinks := [1], delivered := [(1, Msg.interrupted)] } := by
  have h := c7_malformed_header (fun _ => some (Payload.atom 0))
    ['a', 'b', ':', '0', ':', '1'] [] ⟨[1], []⟩
  have h1 : (headerField ['a', 'b', ':', '0', ':', '1']).all Char.isDigit
      = false := by decide
  have h2 := h.1 h1
  exact ⟨h1, h2, by rw [h.2.2.2 h2]; rfl⟩

/-- C8: producer ids are strictly positive, unique within one encode, and
assigned consecutively in registration order by incrementing the counter
once per registration; id 0 is never allocated; the invariant holds in the
initial state of an encode and is preserved by every multiplexer step. -/
theorem c8_producer_ids (sc : StatusCodes) :
    (∀ (v : Val) (c : Nat),
      (flattenVal sc v c).2.2.map Producer.id =
        List.range' (c+1) (flattenVal sc v c).2.2.length ∧
      (flattenVal sc v c).2.1 = c + (flattenVal sc v c).2.2.length) ∧
    (∀ st : EncSt, WF st → (activeIds st).Nodup ∧ 0 ∉ activeIds st ∧
      ∀ i ∈ activeIds st, 0 < i ∧ i ≤ st.counter) ∧
    (∀ v : Val, WF ⟨(flattenVal sc v 0).2.1, (flattenVal sc v 0).2.2⟩) ∧
    (∀ (st : EncSt) (k : Nat) (ch : Chunk) (st' : EncSt), WF st →
      encStep sc st k = some (ch, st') → WF st') := by
  refine ⟨?_, ?_, fun v => initial_wf sc v, ?_⟩
  · intro v c
    exact ⟨(flattenVal_spec sc v c).2.1, (flattenVal_spec sc v c).1⟩
  · intro st hwf
    refine ⟨hwf.1, ?_, fun i hi => activeIds_le hwf i hi⟩
    intro h0
    have := (activeIds_le hwf 0 h0).1
    omega
  · intro st k ch st' hwf hstep
    exact (encStep_wf hstep hwf).1

/-- C8 witness: the invariant facts at a concrete state and step. -/
theorem c8_producer_ids_witness :
    (activeIds ⟨1, [⟨1, [(0, Val.atom 5)]⟩]⟩).Nodup ∧
    0 ∉ activeIds ⟨1, [⟨1, [(0, Val.atom 5)]⟩]⟩ ∧
    ∀ i ∈ activeIds ⟨1, [⟨1, [(0, Val.atom 5)]⟩]⟩,
      0 < i ∧ i ≤ EncSt.counter ⟨1, [⟨1, [(0, Val.atom 5)]⟩]⟩ :=
  (c8_producer_ids jsonCodes).2.1 ⟨1, [⟨1, [(0, Val.atom 5)]⟩]⟩ wf_single_producer

/-- C9: on the empty chunk stream, both decoders fail before producing a
value: `parseAsync` feeds the absent head (`undefined`) to `JSON.parse`,
which throws, and `parseAsyncIterable` feeds it to the synchronous parse,
which fails, so both returned futures reject; a nonempty stream hands its
first chunk to the synchronous decoder. -/
theorem c9_empty_stream :
    parseAsyncHead [] = Except.error () ∧
    parseAsyncIterableHead [] = Except.error () ∧
    (∀ (h : List Char) (t : List (List Char)),
      parseAsyncHead (h :: t) = Except.ok h) :=
  ⟨rfl, rfl, fun _ _ => rfl⟩

/-- C10: the delimited pump splits a producer chunk only at its first two
`':'` delimiters — for all-digit id and status fields and an arbitrary
payload, even one containing further `':'` characters, the id is the text
before the first `':'`, the status the text between the first and second,
and the whole remainder is passed intact as the payload. -/
theorem c10_header_split (a b p : List Char) (ha : a ≠ [])
    (hda : a.all Char.isDigit = true) (hb : b ≠ [])
    (hdb : b.all Char.isDigit = true) :
    parseHeaderDelim (a ++ ':' :: (b ++ ':' :: p)) =
      some (digitsToNat a, digitsToNat b, p) := by
  have h1 := headerField_split (digits_no_colon hda) (b ++ ':' :: p)
  have h2 := headerRest_split (digits_no_colon hda) (b ++ ':' :: p)
  have h3 := headerField_split (digits_no_colon hdb) p
  have h4 := headerRest_split (digits_no_colon hdb) p
  rw [parseHeaderDelim, h1, asNumberOrThrow, if_pos ⟨ha, hda⟩, h2, h3,
    asNumberOrThrow, if_pos ⟨hb, hdb⟩, h4]

/-- C10 witness: the chunk `1:0:2:3` parses as id 1, status 0 and the
payload `2:3` with its inner `':'` intact. -/
theorem c10_header_split_witness :
    parseHeaderDelim (['1'] ++ ':' :: (['0'] ++ ':' :: ['2', ':', '3'])) =
      some (digitsToNat ['1'], digitsToNat ['0'], ['2', ':', '3']) :=
  c10_header_split ['1'] ['0'] ['2', ':', '3'] (by decide) (by decide)
    (by decide) (by decide)

end DevalueAsync
